import Mathlib

/-!
Verification development for the event-snapshot buffer and the
distance-culling cache of `bevy_replicon_action`.

The Rust code is shallowly embedded:

* `VecDeque<EventSnapshot<E>>` becomes a `List EventSnapshot` whose head is
  the deque's front and whose last element is the deque's back
  (`push_back` appends, `pop_front` drops the head).
* `f64`/`f32` values (event timestamps, receipt timestamps, distances,
  culling thresholds) are modelled as rationals `ℚ`: the code only ever
  compares them, and the comparisons form a linear order on the non-NaN
  floats that `ℚ` reproduces.
* `SystemTime::now()` inside `EventSnapshots::insert` is nondeterministic
  input, so the embedded `insert` takes the receipt clock value `now` as an
  explicit argument.
* The generic event type `E : NetworkEvent` is embedded as the record
  `NEvent` of exactly the data the buffer reads from an event: its
  producer-assigned `index` (`usize`, modelled as `Nat`) and producer
  `timestamp`.
* `anyhow::Result<()>` from `insert` becomes `Except InsertErr`, with one
  error constructor per `bail!` site, in source order.
* Bevy `Entity` identifiers are opaque linearly ordered handles; they are
  modelled as `Nat` (only their order is used, for key canonicalization).
* `HashMap<(Entity, Entity), DistanceAt>` is modelled extensionally as a
  function `Nat × Nat → Option DistanceAt`.
-/

/-- Event capability used by the buffer (the `NetworkEvent` trait): a
producer-assigned sequence number and a producer-clock timestamp. -/
structure NEvent where
  index : Nat
  timestamp : ℚ
deriving DecidableEq

/-- One accepted event plus receipt metadata (`EventSnapshot<E>` in
`src/event_snapshot.rs`). -/
structure EventSnapshot where
  event : NEvent
  received_timestamp : ℚ
  tick : Nat
deriving DecidableEq

/-- Snapshot accessor `index()` — delegates to the event. -/
def EventSnapshot.index (s : EventSnapshot) : Nat := s.event.index

/-- Snapshot accessor `timestamp()` — delegates to the event. -/
def EventSnapshot.timestamp (s : EventSnapshot) : ℚ := s.event.timestamp

/-- The snapshot buffer (`EventSnapshots<E>`): deque, capacity, frontier
cursor. The list head is the deque front (oldest), the last element the
deque back (newest). -/
structure EventSnapshots where
  deq : List EventSnapshot
  max_size : Nat
  frontier_index : Nat
deriving DecidableEq

/-- Error kinds of `EventSnapshots::insert`, one per `bail!` site, in the
order the source checks them. -/
inductive InsertErr where
  | capacity
  | clockSkew
  | staleTick
  | staleTimestamp
  | behindFrontier
deriving DecidableEq

namespace EventSnapshots

/-- Constructor `EventSnapshots::with_capacity`. -/
def with_capacity (max_size : Nat) : EventSnapshots :=
  { deq := [], max_size := max_size, frontier_index := 0 }

/-- Accessor `len()`. -/
def len (b : EventSnapshots) : Nat := b.deq.length

/-- Accessor `latest_snapshot()` = `deq.back()`. -/
def latest_snapshot (b : EventSnapshots) : Option EventSnapshot :=
  b.deq.getLast?

/-- The successful tail of `insert`: evict the front when at capacity, then
push the new snapshot at the back (source lines 151–156). -/
def pushEvict (b : EventSnapshots) (e : NEvent) (tick : Nat) (now : ℚ) :
    EventSnapshots :=
  { b with
    deq := (if b.max_size ≤ b.deq.length then b.deq.drop 1 else b.deq)
      ++ [{ event := e, received_timestamp := now, tick := tick }] }

/-- `EventSnapshots::insert(event, tick)`. `now` is the receipt clock read
by the source from `SystemTime::now()`. The guards appear in source order:
zero capacity, clock skew (`event.timestamp() >= received_timestamp`), then
against the latest snapshot (stale tick, stale timestamp), then the
frontier check, then the evicting push. -/
def insert (b : EventSnapshots) (e : NEvent) (tick : Nat) (now : ℚ) :
    Except InsertErr EventSnapshots :=
  if b.max_size = 0 then .error .capacity
  else if now ≤ e.timestamp then .error .clockSkew
  else
    match b.latest_snapshot with
    | some latest =>
      if tick < latest.tick then .error .staleTick
      else if e.timestamp ≤ latest.timestamp then .error .staleTimestamp
      else if e.index < b.frontier_index then .error .behindFrontier
      else .ok (pushEvict b e tick now)
    | none =>
      if e.index < b.frontier_index then .error .behindFrontier
      else .ok (pushEvict b e tick now)

/-- `EventSnapshots::frontier()`: scan for the first entry whose `index()`
is `>= frontier_index`; when found, advance `frontier_index` to the back
entry's index plus one and return the range from that position to the end,
otherwise return the empty range and leave the state alone. -/
def frontier (b : EventSnapshots) : List EventSnapshot × EventSnapshots :=
  match b.deq.findIdx? (fun s => b.frontier_index ≤ s.index) with
  | some i =>
    (b.deq.drop i,
     { b with
       frontier_index := ((b.deq.getLast?).map EventSnapshot.index).getD 0 + 1 })
  | none => ([], b)

end EventSnapshots

/-- One buffer operation: an `insert` call (with its event, tick and receipt
clock) or a `frontier` call. -/
inductive BufOp where
  | ins (e : NEvent) (tick : Nat) (now : ℚ)
  | front
deriving DecidableEq

/-- Apply one operation to a buffer. A failed `insert` leaves the buffer
unchanged, exactly as in the source where every `bail!` happens before any
mutation; the caller logs and discards the event. -/
def applyOp (b : EventSnapshots) : BufOp → EventSnapshots
  | .ins e tick now =>
    match b.insert e tick now with
    | .ok b' => b'
    | .error _ => b
  | .front => (b.frontier).2

/-- Run a sequence of operations from a starting buffer. -/
def runOps (b : EventSnapshots) (ops : List BufOp) : EventSnapshots :=
  ops.foldl applyOp b

/-- A buffer state reachable from `with_capacity N` by `insert` and
`frontier` calls. -/
def Reachable (N : Nat) (b : EventSnapshots) : Prop :=
  ∃ ops : List BufOp, runOps (EventSnapshots.with_capacity N) ops = b

/-- Cached scalar with its computation epoch (`DistanceAt` in
`src/quick_lib/distance_culling.rs`). -/
structure DistanceAt where
  tick : Nat
  distance : ℚ
deriving DecidableEq

/-- Key canonicalization used by both `DistanceMap::insert` and
`DistanceMap::get`: `if key_l >= key_r { (key_l, key_r) } else { (key_r, key_l) }`. -/
def canonKey (key_l key_r : Nat) : Nat × Nat :=
  if key_r ≤ key_l then (key_l, key_r) else (key_r, key_l)

/-- The pairwise distance cache (`DistanceMap`), a map from canonicalized
entity pairs to `DistanceAt`, modelled extensionally. -/
structure DistanceMap where
  entries : Nat × Nat → Option DistanceAt

/-- The empty `DistanceMap` (its `Default`). -/
def DistanceMap.empty : DistanceMap := ⟨fun _ => none⟩

/-- `DistanceMap::insert`: store under the canonicalized key, returning the
previous entry like `HashMap::insert` does. -/
def DistanceMap.insert (m : DistanceMap) (key_l key_r : Nat)
    (distance_at : DistanceAt) : Option DistanceAt × DistanceMap :=
  let key := canonKey key_l key_r
  (m.entries key, ⟨fun k => if k = key then some distance_at else m.entries k⟩)

/-- `DistanceMap::get`: look up under the canonicalized key. -/
def DistanceMap.get (m : DistanceMap) (key_l key_r : Nat) :
    Option DistanceAt :=
  m.entries (canonKey key_l key_r)

/-- Body of the inner loop of `calculate_distance_system` for one
`(player_e, e)` pair at the current `tick`: skip self-pairs, skip when the
cached entry's tick already equals the current tick, otherwise compute the
distance and insert it. `dist` stands for `player_c.distance(&c)` on the
entities' components. The boolean records whether the distance computation
was performed. -/
def calcStep (dist : Nat → Nat → ℚ) (tick : Nat) (m : DistanceMap)
    (player_e e : Nat) : DistanceMap × Bool :=
  if e = player_e then (m, false)
  else
    match m.get player_e e with
    | some d =>
      if d.tick = tick then (m, false)
      else ((m.insert player_e e { tick := tick, distance := dist player_e e }).2, true)
    | none =>
      ((m.insert player_e e { tick := tick, distance := dist player_e e }).2, true)

/-- Body of the inner loop of `distance_culling_system` for one pair whose
cached distance is `distance`, with `visible` the pair's current visibility:
returns the resulting visibility together with the `set_visibility` call
made, if any (`some false` = marked not-visible, `some true` = marked
visible, `none` = no call). -/
def cullStep (visible : Bool) (distance culling_threshold : ℚ) :
    Bool × Option Bool :=
  if culling_threshold ≤ distance then
    if visible then (false, some false) else (visible, none)
  else
    if !visible then (true, some true) else (visible, none)

/-- One `(player_e, e)` pair of `distance_culling_system` including the
cache lookup: a pair with no cached distance is skipped. -/
def cullPair (m : DistanceMap) (visible : Bool) (player_e e : Nat)
    (culling_threshold : ℚ) : Bool × Option Bool :=
  match m.get player_e e with
  | some distance_at => cullStep visible distance_at.distance culling_threshold
  | none => (visible, none)

/-- Chronological ordering between snapshots: strictly increasing event
timestamps, non-decreasing ticks. -/
def Chrono (a c : EventSnapshot) : Prop :=
  a.timestamp < c.timestamp ∧ a.tick ≤ c.tick

/-- In a pairwise-related list every element either is the last element or
relates to it. -/
theorem pairwise_rel_last {α : Type} {R : α → α → Prop} :
    ∀ (l : List α) (x : α), l.Pairwise R → l.getLast? = some x →
      ∀ a ∈ l, a = x ∨ R a x := by
  intro l
  induction l with
  | nil => intro x _ hx; simp at hx
  | cons hd t ih =>
    intro x hp hx a ha
    cases t with
    | nil =>
      simp only [List.getLast?_singleton, Option.some.injEq] at hx
      simp only [List.mem_singleton] at ha
      subst hx; subst ha; exact Or.inl rfl
    | cons b t2 =>
      rw [List.getLast?_cons_cons] at hx
      have hxmem : x ∈ b :: t2 := by
        have hne : (b :: t2) ≠ [] := by simp
        rw [List.getLast?_eq_getLast _ hne] at hx
        exact (Option.some.inj hx) ▸ List.getLast_mem hne
      rcases List.mem_cons.mp ha with rfl | ha2
      · exact Or.inr ((List.pairwise_cons.mp hp).1 x hxmem)
      · exact ih x (List.pairwise_cons.mp hp).2 hx a ha2

/-- The inductive invariant of the buffer: the capacity field equals the
construction capacity, the length is bounded by it, a zero-capacity buffer
stays empty with cursor zero, the cursor never exceeds the back entry's
index plus one, and the deque is chronologically ordered. -/
def BufInv (N : Nat) (b : EventSnapshots) : Prop :=
  b.max_size = N ∧
  b.len ≤ N ∧
  (b.max_size = 0 → b.frontier_index = 0 ∧ b.deq = []) ∧
  (∀ lst, b.deq.getLast? = some lst → b.frontier_index ≤ lst.index + 1) ∧
  b.deq.Pairwise Chrono

theorem bufInv_init (N : Nat) : BufInv N (EventSnapshots.with_capacity N) := by
  refine ⟨rfl, ?_, ?_, ?_, ?_⟩ <;>
    simp [EventSnapshots.with_capacity, EventSnapshots.len]

/-- Characterization of a successful `insert`: all guards passed and the
result is the evicting push. -/
theorem insert_ok {b : EventSnapshots} {e : NEvent} {tick : Nat} {now : ℚ}
    {b' : EventSnapshots} (h : b.insert e tick now = Except.ok b') :
    b.max_size ≠ 0 ∧ e.timestamp < now ∧
    (∀ lst, b.latest_snapshot = some lst →
      lst.tick ≤ tick ∧ lst.timestamp < e.timestamp) ∧
    b.frontier_index ≤ e.index ∧ b' = b.pushEvict e tick now := by
  unfold EventSnapshots.insert at h
  by_cases h1 : b.max_size = 0
  · rw [if_pos h1] at h; simp at h
  rw [if_neg h1] at h
  by_cases h2 : now ≤ e.timestamp
  · rw [if_pos h2] at h; simp at h
  rw [if_neg h2] at h
  split at h
  next lst heq =>
    by_cases h3 : tick < lst.tick
    · rw [if_pos h3] at h; simp at h
    rw [if_neg h3] at h
    by_cases h4 : e.timestamp ≤ lst.timestamp
    · rw [if_pos h4] at h; simp at h
    rw [if_neg h4] at h
    by_cases h5 : e.index < b.frontier_index
    · rw [if_pos h5] at h; simp at h
    rw [if_neg h5] at h
    refine ⟨h1, lt_of_not_le h2, ?_, Nat.le_of_not_lt h5, (Except.ok.inj h).symm⟩
    intro lst2 hlst2
    rw [heq] at hlst2
    cases Option.some.inj hlst2
    exact ⟨Nat.le_of_not_lt h3, lt_of_not_le h4⟩
  next heq =>
    by_cases h5 : e.index < b.frontier_index
    · rw [if_pos h5] at h; simp at h
    rw [if_neg h5] at h
    refine ⟨h1, lt_of_not_le h2, ?_, Nat.le_of_not_lt h5, (Except.ok.inj h).symm⟩
    intro lst2 hlst2
    rw [heq] at hlst2
    simp at hlst2

theorem bufInv_pushEvict {N : Nat} {b : EventSnapshots} {e : NEvent}
    {tick : Nat} {now : ℚ} (hInv : BufInv N b) (hms : b.max_size ≠ 0)
    (hchron : ∀ lst, b.latest_snapshot = some lst →
      lst.tick ≤ tick ∧ lst.timestamp < e.timestamp)
    (hfi : b.frontier_index ≤ e.index) :
    BufInv N (b.pushEvict e tick now) := by
  obtain ⟨hN, hlen, _, _, hpw⟩ := hInv
  have hsnap_ts :
      (({ event := e, received_timestamp := now, tick := tick } :
        EventSnapshot)).timestamp = e.timestamp := rfl
  have hpre : (if b.max_size ≤ b.deq.length then b.deq.drop 1 else b.deq).Sublist
      b.deq := by
    split
    · exact List.drop_sublist 1 b.deq
    · exact List.Sublist.refl b.deq
  refine ⟨hN, ?_, fun h0 => absurd h0 hms, ?_, ?_⟩
  · unfold EventSnapshots.pushEvict EventSnapshots.len
    simp only [List.length_append, List.length_singleton]
    unfold EventSnapshots.len at hlen
    split
    next hc =>
      rw [List.length_drop]
      have hpos : 1 ≤ b.deq.length := by omega
      omega
    next hc => omega
  · intro lst hlst
    unfold EventSnapshots.pushEvict at hlst
    rw [List.getLast?_concat] at hlst
    cases Option.some.inj hlst
    exact Nat.le_succ_of_le hfi
  · unfold EventSnapshots.pushEvict
    rw [List.pairwise_append]
    refine ⟨List.Pairwise.sublist hpre hpw, List.pairwise_singleton _ _, ?_⟩
    intro a ha c hc
    rw [List.mem_singleton] at hc
    subst hc
    have hmem : a ∈ b.deq := hpre.subset ha
    have hne : b.deq ≠ [] := by
      intro hcon; rw [hcon] at hmem; simp at hmem
    have hlst : b.latest_snapshot = some (b.deq.getLast hne) :=
      List.getLast?_eq_getLast _ hne
    obtain ⟨htick, hts⟩ := hchron _ hlst
    rcases pairwise_rel_last b.deq _ hpw hlst a hmem with rfl | hrel
    · exact ⟨hts, htick⟩
    · exact ⟨lt_trans hrel.1 hts, le_trans hrel.2 htick⟩

theorem bufInv_frontier {N : Nat} {b : EventSnapshots} (hInv : BufInv N b) :
    BufInv N (b.frontier).2 ∧
    b.frontier_index ≤ (b.frontier).2.frontier_index := by
  obtain ⟨hN, hlen, hzero, hback, hpw⟩ := hInv
  unfold EventSnapshots.frontier
  cases hf : b.deq.findIdx? (fun s => b.frontier_index ≤ s.index) with
  | none => exact ⟨⟨hN, hlen, hzero, hback, hpw⟩, le_refl _⟩
  | some i =>
    obtain ⟨hi, _, _⟩ := List.findIdx?_eq_some_iff_getElem.mp hf
    have hne : b.deq ≠ [] := by
      intro hcon; rw [hcon] at hi; simp at hi
    have hlst : b.deq.getLast? = some (b.deq.getLast hne) :=
      List.getLast?_eq_getLast _ hne
    simp only [hlst, Option.map_some, Option.getD_some]
    refine ⟨⟨hN, hlen, ?_, ?_, hpw⟩, ?_⟩
    · intro h0
      exact absurd ((hzero h0).2) hne
    · intro lst hl
      rw [hlst] at hl
      cases Option.some.inj hl
      exact le_refl _
    · exact hback _ hlst

theorem bufInv_applyOp {N : Nat} {b : EventSnapshots} (hInv : BufInv N b)
    (op : BufOp) :
    BufInv N (applyOp b op) ∧
    b.frontier_index ≤ (applyOp b op).frontier_index := by
  cases op with
  | ins e tick now =>
    cases hres : b.insert e tick now with
    | error err =>
      have happ : applyOp b (.ins e tick now) = b := by simp [applyOp, hres]
      rw [happ]
      exact ⟨hInv, le_refl _⟩
    | ok b' =>
      have happ : applyOp b (.ins e tick now) = b' := by simp [applyOp, hres]
      rw [happ]
      obtain ⟨hms, _, hchron, hfi, hb'⟩ := insert_ok hres
      subst hb'
      exact ⟨bufInv_pushEvict hInv hms hchron hfi, le_refl _⟩
  | front =>
    have happ : applyOp b .front = (b.frontier).2 := by simp [applyOp]
    rw [happ]
    exact bufInv_frontier hInv

theorem bufInv_runOps (N : Nat) (ops : List BufOp) :
    BufInv N (runOps (EventSnapshots.with_capacity N) ops) := by
  suffices h : ∀ b, BufInv N b → BufInv N (runOps b ops) from
    h _ (bufInv_init N)
  induction ops with
  | nil => intro b hb; exact hb
  | cons op rest ih =>
    intro b hb
    have hstep : runOps b (op :: rest) = runOps (applyOp b op) rest := by
      simp [runOps]
    rw [hstep]
    exact ih _ (bufInv_applyOp hb op).1

theorem reachable_inv {N : Nat} {b : EventSnapshots} (h : Reachable N b) :
    BufInv N b := by
  obtain ⟨ops, hops⟩ := h
  exact hops ▸ bufInv_runOps N ops

/-- C1 (amended): when at least one stored snapshot has `index() >=
frontier_index`, `frontier()` returns exactly the snapshots from the first
such position through the end of the buffer, the FIRST returned snapshot
has `index() >=` the pre-call `frontier_index`, the deque and capacity are
untouched, and `frontier_index` is set to the last buffer entry's index
plus one. (The original claim that EVERY returned snapshot has `index()
>=` the pre-call cursor is refuted by `frontier_cursor_overrun_cex`:
entries after the first qualifying position may have smaller indices,
since insertion order is not index order.) -/
theorem frontier_contract (b : EventSnapshots)
    (h : ∃ s ∈ b.deq, b.frontier_index ≤ s.index) :
    ∃ i lst,
      b.deq.getLast? = some lst ∧
      (∀ s ∈ b.deq.take i, s.index < b.frontier_index) ∧
      (∃ s0, ((b.frontier).1).head? = some s0 ∧ b.frontier_index ≤ s0.index) ∧
      (b.frontier).1 = b.deq.drop i ∧
      (b.frontier).2.deq = b.deq ∧
      (b.frontier).2.max_size = b.max_size ∧
      (b.frontier).2.frontier_index = lst.index + 1 := by
  have hex : ∃ s ∈ b.deq,
      (fun s : EventSnapshot => decide (b.frontier_index ≤ s.index)) s = true := by
    obtain ⟨s, hs, hle⟩ := h
    exact ⟨s, hs, by simpa using hle⟩
  have hfind := List.findIdx?_eq_some_of_exists hex
  obtain ⟨hi, hp, hbefore⟩ := List.findIdx?_eq_some_iff_getElem.mp hfind
  have hne : b.deq ≠ [] := by
    intro hcon
    rw [hcon] at hi
    simp at hi
  have hlst : b.deq.getLast? = some (b.deq.getLast hne) :=
    List.getLast?_eq_getLast _ hne
  have hfr : b.frontier =
      (b.deq.drop (b.deq.findIdx
        (fun s : EventSnapshot => decide (b.frontier_index ≤ s.index))),
       { b with frontier_index :=
          ((b.deq.getLast?).map EventSnapshot.index).getD 0 + 1 }) := by
    unfold EventSnapshots.frontier
    rw [hfind]
  refine ⟨b.deq.findIdx (fun s : EventSnapshot => decide (b.frontier_index ≤ s.index)),
    b.deq.getLast hne, hlst, ?_, ?_, ?_, ?_, ?_, ?_⟩
  · intro s hs
    obtain ⟨j, hj, heq⟩ := List.mem_iff_getElem.mp hs
    have hjlen : j < b.deq.length := by
      rw [List.length_take] at hj
      omega
    have hji : j < b.deq.findIdx
        (fun s : EventSnapshot => decide (b.frontier_index ≤ s.index)) := by
      rw [List.length_take] at hj
      omega
    have := hbefore j hji
    rw [List.getElem_take] at heq
    rw [heq] at this
    simpa using Nat.lt_of_not_le (by simpa using this)
  · refine ⟨b.deq[b.deq.findIdx
        (fun s : EventSnapshot => decide (b.frontier_index ≤ s.index))],
      ?_, by simpa using hp⟩
    rw [hfr]
    rw [List.head?_drop]
    exact List.getElem?_eq_getElem hi
  · rw [hfr]
  · rw [hfr]
  · rw [hfr]
  · rw [hfr]
    simp [hlst]

def eA : NEvent := { index := 5, timestamp := 1 }

def eB : NEvent := { index := 3, timestamp := 2 }

def eC : NEvent := { index := 10, timestamp := 3 }

/-- A reachable buffer holding snapshots with indices `[5, 3, 10]` and
`frontier_index = 4` (the first two inserts arrive out of index order, a
`frontier()` call advances the cursor to `3 + 1 = 4`, then index `10` is
accepted). -/
def bC1cex : EventSnapshots :=
  runOps (EventSnapshots.with_capacity 10)
    [.ins eA 0 100, .ins eB 0 100, .front, .ins eC 0 100]

/-- C1 counterexample: calling `frontier()` on `bC1cex` (whose cursor is
`4` and which stores an entry with index `5 ≥ 4`) returns the snapshot
with index `3 < 4` as well, so not every returned snapshot has `index()`
at least the pre-call `frontier_index`. -/
theorem frontier_cursor_overrun_cex :
    bC1cex.frontier_index = 4 ∧
    ((bC1cex.frontier).1).map EventSnapshot.index = [5, 3, 10] ∧
    ¬ (∀ s ∈ (bC1cex.frontier).1, bC1cex.frontier_index ≤ s.index) := by
  decide

def bC1w : EventSnapshots :=
  runOps (EventSnapshots.with_capacity 8)
    [.ins { index := 3, timestamp := 1 } 0 100,
     .ins { index := 4, timestamp := 2 } 0 100,
     .ins { index := 5, timestamp := 3 } 0 100]

/-- Witness for C1: the amended contract instantiated on a concrete buffer
with indices `[3, 4, 5]` and cursor `0`. -/
theorem frontier_contract_witness :
    (∃ s ∈ bC1w.deq, bC1w.frontier_index ≤ s.index) ∧
    (∃ i lst,
      bC1w.deq.getLast? = some lst ∧
      (∀ s ∈ bC1w.deq.take i, s.index < bC1w.frontier_index) ∧
      (∃ s0, ((bC1w.frontier).1).head? = some s0 ∧
        bC1w.frontier_index ≤ s0.index) ∧
      (bC1w.frontier).1 = bC1w.deq.drop i ∧
      (bC1w.frontier).2.deq = bC1w.deq ∧
      (bC1w.frontier).2.max_size = bC1w.max_size ∧
      (bC1w.frontier).2.frontier_index = lst.index + 1) :=
  ⟨by decide, frontier_contract bC1w (by decide)⟩

/-- C2: for every capacity `N` and every sequence of `insert` / `frontier`
calls on a buffer created with `with_capacity N`, `len() ≤ N` holds after
every operation; moreover a successful insert into a buffer at capacity
first evicts the oldest (front) snapshot and then appends the new one. -/
theorem len_le_capacity (N : Nat) (ops : List BufOp) :
    (runOps (EventSnapshots.with_capacity N) ops).len ≤ N ∧
    (∀ e tick now b',
      (runOps (EventSnapshots.with_capacity N) ops).insert e tick now =
        Except.ok b' →
      N ≤ (runOps (EventSnapshots.with_capacity N) ops).len →
      b'.deq = (runOps (EventSnapshots.with_capacity N) ops).deq.drop 1 ++
        [{ event := e, received_timestamp := now, tick := tick }]) := by
  obtain ⟨hN, hlen, _, _, _⟩ := bufInv_runOps N ops
  refine ⟨hlen, ?_⟩
  intro e tick now b' hok hcap
  obtain ⟨_, _, _, _, hb'⟩ := insert_ok hok
  subst hb'
  have hcond : (runOps (EventSnapshots.with_capacity N) ops).max_size ≤
      (runOps (EventSnapshots.with_capacity N) ops).deq.length := by
    rw [hN]
    exact hcap
  simp [EventSnapshots.pushEvict, hcond]

def bC2w : EventSnapshots :=
  runOps (EventSnapshots.with_capacity 1)
    [.ins { index := 0, timestamp := 1 } 0 10]

/-- Witness for C2: a capacity-1 buffer holding one snapshot; a further
successful insert evicts the front entry and the length bound holds. -/
theorem len_le_capacity_witness :
    bC2w.len ≤ 1 ∧
    (bC2w.pushEvict { index := 1, timestamp := 2 } 0 10).deq =
      bC2w.deq.drop 1 ++
        [{ event := { index := 1, timestamp := 2 },
           received_timestamp := 10, tick := 0 }] :=
  ⟨(len_le_capacity 1 [.ins { index := 0, timestamp := 1 } 0 10]).1,
   (len_le_capacity 1 [.ins { index := 0, timestamp := 1 } 0 10]).2
     { index := 1, timestamp := 2 } 0 10
     (bC2w.pushEvict { index := 1, timestamp := 2 } 0 10)
     rfl (by decide)⟩

/-- C3: over any operation sequence from creation, `frontier_index` is
monotonically non-decreasing: appending one more `insert` or `frontier`
call never makes it smaller. -/
theorem frontier_index_monotone (N : Nat) (ops : List BufOp) (op : BufOp) :
    (runOps (EventSnapshots.with_capacity N) ops).frontier_index ≤
      (runOps (EventSnapshots.with_capacity N) (ops ++ [op])).frontier_index := by
  have hstep : runOps (EventSnapshots.with_capacity N) (ops ++ [op]) =
      applyOp (runOps (EventSnapshots.with_capacity N) ops) op := by
    simp [runOps, List.foldl_append]
  rw [hstep]
  exact (bufInv_applyOp (bufInv_runOps N ops) op).2

/-- C10: every buffer reachable from `with_capacity` by `insert` and
`frontier` calls stores snapshots whose event timestamps strictly increase
and whose ticks are non-decreasing, read from oldest to newest in
insertion order. -/
theorem deq_chronological (N : Nat) (ops : List BufOp) :
    ((runOps (EventSnapshots.with_capacity N) ops).deq).Pairwise Chrono :=
  (bufInv_runOps N ops).2.2.2.2

/-- Shape of `insert` when a latest snapshot exists and the capacity and
clock-skew guards pass. -/
theorem insert_eq_some_latest {b : EventSnapshots} {e : NEvent} {tick : Nat}
    {now : ℚ} {lst : EventSnapshot} (h1 : b.max_size ≠ 0)
    (h2 : ¬ now ≤ e.timestamp) (hl : b.latest_snapshot = some lst) :
    b.insert e tick now =
      (if tick < lst.tick then .error .staleTick
       else if e.timestamp ≤ lst.timestamp then .error .staleTimestamp
       else if e.index < b.frontier_index then .error .behindFrontier
       else .ok (b.pushEvict e tick now)) := by
  unfold EventSnapshots.insert
  rw [if_neg h1, if_neg h2, hl]

/-- Shape of `insert` on an empty buffer when the capacity and clock-skew
guards pass. -/
theorem insert_eq_no_latest {b : EventSnapshots} {e : NEvent} {tick : Nat}
    {now : ℚ} (h1 : b.max_size ≠ 0) (h2 : ¬ now ≤ e.timestamp)
    (hl : b.latest_snapshot = none) :
    b.insert e tick now =
      (if e.index < b.frontier_index then .error .behindFrontier
       else .ok (b.pushEvict e tick now)) := by
  unfold EventSnapshots.insert
  rw [if_neg h1, if_neg h2, hl]

/-- C4 (amended): a `frontier()` call made immediately after a previous
`frontier()` call, with no intervening inserts, always leaves
`frontier_index` unchanged; it returns an empty sequence whenever the
stored snapshots' indices are non-decreasing in insertion order (in
particular whenever nothing qualifies). When earlier entries carry larger
indices than the back entry, the second call can return a non-empty
sequence again — see `frontier_repeat_cex`. -/
theorem frontier_repeat (b : EventSnapshots) :
    (((b.frontier).2).frontier).2.frontier_index =
      (b.frontier).2.frontier_index ∧
    (b.deq.Pairwise (fun a c => a.index ≤ c.index) →
      (((b.frontier).2).frontier).1 = []) := by
  cases hf1 : b.deq.findIdx? (fun s => b.frontier_index ≤ s.index) with
  | none =>
    have h1 : b.frontier = ([], b) := by
      unfold EventSnapshots.frontier
      rw [hf1]
    rw [h1]
    cases hf1b : b.deq.findIdx? (fun s => b.frontier_index ≤ s.index) with
    | none =>
      have h2 : b.frontier = ([], b) := by
        unfold EventSnapshots.frontier
        rw [hf1b]
      rw [h2]
      exact ⟨rfl, fun _ => rfl⟩
    | some i =>
      rw [hf1] at hf1b
      exact absurd hf1b (by simp)
  | some i =>
    obtain ⟨hi, _, _⟩ := List.findIdx?_eq_some_iff_getElem.mp hf1
    have hne : b.deq ≠ [] := by
      intro hcon
      rw [hcon] at hi
      simp at hi
    have hlst : b.deq.getLast? = some (b.deq.getLast hne) :=
      List.getLast?_eq_getLast _ hne
    have h1 : b.frontier =
        (b.deq.drop i,
         { b with frontier_index := (b.deq.getLast hne).index + 1 }) := by
      unfold EventSnapshots.frontier
      rw [hf1, hlst]
      rfl
    rw [h1]
    cases hf2 : b.deq.findIdx?
        (fun s => (b.deq.getLast hne).index + 1 ≤ s.index) with
    | none =>
      have h2 : ({ b with frontier_index :=
          (b.deq.getLast hne).index + 1 } : EventSnapshots).frontier =
          ([], { b with frontier_index := (b.deq.getLast hne).index + 1 }) := by
        unfold EventSnapshots.frontier
        rw [hf2]
      rw [h2]
      exact ⟨rfl, fun _ => rfl⟩
    | some j =>
      have h2 : ({ b with frontier_index :=
          (b.deq.getLast hne).index + 1 } : EventSnapshots).frontier =
          (b.deq.drop j,
           { b with frontier_index := (b.deq.getLast hne).index + 1 }) := by
        unfold EventSnapshots.frontier
        rw [hf2, hlst]
        rfl
      rw [h2]
      refine ⟨rfl, ?_⟩
      intro hsorted
      exfalso
      obtain ⟨hj, hpj, _⟩ := List.findIdx?_eq_some_iff_getElem.mp hf2
      have hmem : b.deq[j] ∈ b.deq := List.getElem_mem hj
      have hle : (b.deq.getLast hne).index + 1 ≤ b.deq[j].index := by
        simpa using hpj
      rcases pairwise_rel_last b.deq _ hsorted hlst _ hmem with heq | hrel
      · rw [heq] at hle
        omega
      · omega

def bC4w : EventSnapshots :=
  runOps (EventSnapshots.with_capacity 3)
    [.ins { index := 1, timestamp := 1 } 0 10,
     .ins { index := 2, timestamp := 2 } 0 10]

/-- Witness for C4: on a buffer with indices `[1, 2]` in order, the second
of two consecutive `frontier()` calls returns the empty sequence and keeps
the cursor. -/
theorem frontier_repeat_witness :
    (((bC4w.frontier).2).frontier).2.frontier_index =
      (bC4w.frontier).2.frontier_index ∧
    (((bC4w.frontier).2).frontier).1 = [] :=
  ⟨(frontier_repeat bC4w).1, (frontier_repeat bC4w).2 (by decide)⟩

/-- A reachable buffer whose last operation was a `frontier()` call: two
events arrive with indices `5` then `3` (out of index order), and
`frontier()` consumes them, setting the cursor to `3 + 1 = 4`. -/
def bC4cex : EventSnapshots :=
  runOps (EventSnapshots.with_capacity 10)
    [.ins eA 0 100, .ins eB 0 100, .front]

/-- C4 counterexample: `bC4cex` is the state immediately after a
`frontier()` call, with no intervening inserts, yet the next `frontier()`
call returns the non-empty sequence of indices `[5, 3]` (the entry with
index `5 ≥ 4` re-qualifies), refuting the claim that such a call always
yields an empty sequence. The cursor does stay at `4`. -/
theorem frontier_repeat_cex :
    bC4cex.frontier_index = 4 ∧
    (bC4cex.frontier).2.frontier_index = 4 ∧
    ((bC4cex.frontier).1).map EventSnapshot.index = [5, 3] ∧
    (bC4cex.frontier).1 ≠ [] := by
  decide

/-- C5 (amended): on a reachable non-empty buffer, inserting an event whose
timestamp is `<=` the latest stored snapshot's event timestamp always fails
and leaves the buffer state unchanged; the error is `StaleTimestampError`
provided the earlier guards also pass, i.e. the event's timestamp is below
the receipt clock and its tick is not older than the latest snapshot's
(otherwise the clock-skew or stale-tick guard fires first — see
`insert_stale_timestamp_cex`). -/
theorem insert_stale_timestamp (N : Nat) (b : EventSnapshots) (e : NEvent)
    (tick : Nat) (now : ℚ) (lst : EventSnapshot)
    (hr : Reachable N b) (hl : b.latest_snapshot = some lst)
    (hts : e.timestamp ≤ lst.timestamp) :
    (∃ err, b.insert e tick now = .error err) ∧
    applyOp b (.ins e tick now) = b ∧
    (e.timestamp < now → lst.tick ≤ tick →
      b.insert e tick now = .error .staleTimestamp) := by
  obtain ⟨_, _, hzero, _, _⟩ := reachable_inv hr
  have hms : b.max_size ≠ 0 := by
    intro h0
    rw [EventSnapshots.latest_snapshot, (hzero h0).2] at hl
    simp at hl
  have herr : ∃ err, b.insert e tick now = .error err := by
    by_cases h2 : now ≤ e.timestamp
    · refine ⟨.clockSkew, ?_⟩
      unfold EventSnapshots.insert
      rw [if_neg hms, if_pos h2]
    by_cases h3 : tick < lst.tick
    · exact ⟨.staleTick, by rw [insert_eq_some_latest hms h2 hl, if_pos h3]⟩
    · exact ⟨.staleTimestamp,
        by rw [insert_eq_some_latest hms h2 hl, if_neg h3, if_pos hts]⟩
  obtain ⟨err, heq⟩ := herr
  refine ⟨⟨err, heq⟩, by simp [applyOp, heq], ?_⟩
  intro hnow htick
  rw [insert_eq_some_latest hms (not_le.mpr hnow) hl,
    if_neg (Nat.not_lt.mpr htick), if_pos hts]

/-- A reachable buffer with one snapshot: event index `0`, event timestamp
`1`, receipt timestamp `100`, tick `5`. -/
def bStale : EventSnapshots :=
  runOps (EventSnapshots.with_capacity 4)
    [.ins { index := 0, timestamp := 1 } 5 100]

/-- C5 counterexample: inserting into `bStale` an event whose timestamp `1`
equals the latest snapshot's timestamp (so the claim applies) but whose
tick `3` is older than the latest snapshot's tick `5` fails with the
stale-TICK error, not `StaleTimestampError` — the tick guard fires
first. -/
theorem insert_stale_timestamp_cex :
    (bStale.latest_snapshot).map EventSnapshot.timestamp = some 1 ∧
    ((1 : ℚ) ≤ 1) ∧
    bStale.insert { index := 1, timestamp := 1 } 3 100 =
      .error .staleTick ∧
    bStale.insert { index := 1, timestamp := 1 } 3 100 ≠
      .error .staleTimestamp := by
  refine ⟨by decide, by decide, rfl, ?_⟩
  intro hcon
  rw [show bStale.insert { index := 1, timestamp := 1 } 3 100 =
    .error .staleTick from rfl] at hcon
  simp at hcon

/-- Witness for C5: a stale-timestamped event with an admissible tick and
receipt clock is rejected with `StaleTimestampError`. -/
theorem insert_stale_timestamp_witness :
    bStale.insert { index := 1, timestamp := 1 } 5 100 =
      .error .staleTimestamp :=
  (insert_stale_timestamp 4 bStale { index := 1, timestamp := 1 } 5 100
    { event := { index := 0, timestamp := 1 },
      received_timestamp := 100, tick := 5 }
    ⟨[.ins { index := 0, timestamp := 1 } 5 100], rfl⟩ rfl
    (by decide)).2.2 (by decide) (by decide)

/-- C6: on any reachable buffer, inserting an event whose `index()` is less
than the current `frontier_index` fails with `BehindFrontierError` whenever
the event is otherwise chronologically valid (its timestamp is below the
receipt clock, and tick and timestamp are admissible against the latest
snapshot), and the buffer state is unchanged. -/
theorem insert_behind_frontier (N : Nat) (b : EventSnapshots) (e : NEvent)
    (tick : Nat) (now : ℚ) (hr : Reachable N b)
    (hnow : e.timestamp < now)
    (hchron : ∀ lst, b.latest_snapshot = some lst →
      lst.tick ≤ tick ∧ lst.timestamp < e.timestamp)
    (hidx : e.index < b.frontier_index) :
    b.insert e tick now = .error .behindFrontier ∧
    applyOp b (.ins e tick now) = b := by
  obtain ⟨_, _, hzero, _, _⟩ := reachable_inv hr
  have hms : b.max_size ≠ 0 := by
    intro h0
    have hfi := (hzero h0).1
    omega
  have h2 : ¬ now ≤ e.timestamp := not_le.mpr hnow
  have herr : b.insert e tick now = .error .behindFrontier := by
    cases hl : b.latest_snapshot with
    | none => rw [insert_eq_no_latest hms h2 hl, if_pos hidx]
    | some lst =>
      obtain ⟨ht, hts⟩ := hchron lst hl
      rw [insert_eq_some_latest hms h2 hl, if_neg (Nat.not_lt.mpr ht),
        if_neg (not_le.mpr hts), if_pos hidx]
  exact ⟨herr, by simp [applyOp, herr]⟩

/-- A reachable buffer whose cursor has advanced to `1`: one event with
index `0` is inserted and then consumed by `frontier()`. -/
def bC6w : EventSnapshots :=
  runOps (EventSnapshots.with_capacity 2)
    [.ins { index := 0, timestamp := 1 } 0 10, .front]

/-- Witness for C6: a chronologically valid event (fresh timestamp, equal
tick) whose index `0` is behind the cursor `1` is rejected with
`BehindFrontierError`. -/
theorem insert_behind_frontier_witness :
    bC6w.insert { index := 0, timestamp := 2 } 0 10 =
      .error .behindFrontier :=
  (insert_behind_frontier 2 bC6w { index := 0, timestamp := 2 } 0 10
    ⟨[.ins { index := 0, timestamp := 1 } 0 10, .front], rfl⟩
    (by decide)
    (fun lst hl => by
      rw [show bC6w.latest_snapshot =
        some { event := { index := 0, timestamp := 1 },
               received_timestamp := 10, tick := 0 } from rfl] at hl
      cases Option.some.inj hl
      exact ⟨le_refl 0, by decide⟩)
    (by decide)).1

/-- Canonicalization is symmetric in its two entity arguments. -/
theorem canonKey_comm (A B : Nat) : canonKey B A = canonKey A B := by
  unfold canonKey
  split <;> split <;> rename_i h1 h2
  · have hAB : A = B := Nat.le_antisymm h1 h2
    subst hAB
    rfl
  · rfl
  · rfl
  · omega

/-- C7: for all entity identifiers `A`, `B` (equal or not) and every cached
value `d`, `DistanceMap.insert A B d` followed by `DistanceMap.get B A`
returns `d`: the unordered pair is canonicalized, so `(A, B)` and `(B, A)`
address the same entry. -/
theorem distance_map_symmetric (m : DistanceMap) (A B : Nat)
    (d : DistanceAt) :
    ((m.insert A B d).2).get B A = some d := by
  show ((m.insert A B d).2).entries (canonKey B A) = some d
  rw [canonKey_comm]
  simp [DistanceMap.insert]

/-- C8: the evaluator marks a pair not-visible exactly when its cached
distance is `>=` the threshold (inclusive on the cull side) and it was
visible, and marks it visible exactly when the distance is `<` the
threshold and it was not visible; concretely, distance `9.9` against
threshold `10` ends visible and distance `10` exactly ends not-visible. -/
theorem cull_threshold_behavior (visible : Bool) (d θ : ℚ) :
    ((cullStep visible d θ).2 = some false ↔ θ ≤ d ∧ visible = true) ∧
    ((cullStep visible d θ).2 = some true ↔ d < θ ∧ visible = false) ∧
    (cullStep visible (99/10) 10).1 = true ∧
    (cullStep visible 10 10).1 = false := by
  have h99 : ¬ ((10 : ℚ) ≤ 99/10) := by norm_num
  refine ⟨?_, ?_, ?_, ?_⟩
  · rcases le_or_lt θ d with hθ | hθ
    · cases visible <;> simp [cullStep, hθ, hθ.not_lt]
    · cases visible <;> simp [cullStep, hθ, hθ.not_le]
  · rcases le_or_lt θ d with hθ | hθ
    · cases visible <;> simp [cullStep, hθ, hθ.not_lt]
    · cases visible <;> simp [cullStep, hθ, hθ.not_le]
  · cases visible <;> simp [cullStep, h99]
  · cases visible <;> simp [cullStep]

/-- Looking up the key just inserted returns the inserted value. -/
theorem get_insert_self (m : DistanceMap) (l r : Nat) (d : DistanceAt) :
    ((m.insert l r d).2).get l r = some d := by
  simp [DistanceMap.get, DistanceMap.insert]

/-- C9: running the per-pair distance-recompute step twice at the same tick
performs the distance computation at most once: the second run computes
nothing and leaves the cache exactly as the first run left it, and the
step is skipped (cache and computation untouched) whenever the cached
entry's tick already equals the current tick. -/
theorem calc_at_most_once_per_tick (dist : Nat → Nat → ℚ) (tick : Nat)
    (m : DistanceMap) (player_e e : Nat) :
    (calcStep dist tick (calcStep dist tick m player_e e).1 player_e e).2
      = false ∧
    (calcStep dist tick (calcStep dist tick m player_e e).1 player_e e).1
      = (calcStep dist tick m player_e e).1 ∧
    (∀ d, m.get player_e e = some d → d.tick = tick →
      calcStep dist tick m player_e e = (m, false)) := by
  have hskip : ∀ d, m.get player_e e = some d → d.tick = tick →
      calcStep dist tick m player_e e = (m, false) := by
    intro d hget htick
    by_cases hpe : e = player_e
    · simp [calcStep, hpe]
    · simp [calcStep, hpe, hget, htick]
  refine ⟨?_, ?_, hskip⟩ <;>
  · by_cases hpe : e = player_e
    · simp [calcStep, hpe]
    · cases hget : m.get player_e e with
      | some d =>
        by_cases htick : d.tick = tick
        · simp [calcStep, hpe, hget, htick]
        · simp [calcStep, hpe, hget, htick, get_insert_self]
      | none => simp [calcStep, hpe, hget, get_insert_self]

def distZero : Nat → Nat → ℚ := fun _ _ => 0

def mC9w : DistanceMap :=
  (DistanceMap.empty.insert 1 2 { tick := 7, distance := 3 }).2

/-- Witness for C9: with entities `1`, `2` and a cache already holding tick
`7` for the pair, the recompute step at tick `7` is a no-op. -/
theorem calc_at_most_once_per_tick_witness :
    calcStep distZero 7 mC9w 1 2 = (mC9w, false) :=
  (calc_at_most_once_per_tick distZero 7 mC9w 1 2).2.2
    { tick := 7, distance := 3 } rfl rfl
